import Mathlib

/-!
# Verification of the article-noun counting pipeline (`count_article_nouns.py`)

Shallow embedding of the pipeline that selects frequent nouns from a tagged
corpus (`most_frequent_nouns`), classifies the article/possessive modifying
each target-noun chunk (`process_sentence`), and aggregates the observations
into a noun-by-label count table whose hapax columns are folded into the
`"no_article"` column (the hapax-merge step of `main`).

Python string methods are modelled as executable functions on the character
list of a `String` (`pyLower`, `pyStrip`, `splitOnTab`, `pyStartsWith`,
`isAlphaStr`), Python `Counter`s as association lists in first-encounter
order, and the pandas table of `main` as a list of labelled column vectors
(`Table`), with each column stored as a function from row key (noun) to the
integer cell value.  The pandas `KeyError` raised by
`nouns_articles["no_article"] += ...` when the column is absent is modelled
by `mergeHapaxes` returning `none`.
-/

namespace ArticleNouns

/-! ## Python string primitives -/

/-- Python `str.lower()`: lowercase every character. -/
def pyLower (s : String) : String := ⟨s.data.map Char.toLower⟩

/-- Python `str.strip()`: drop leading and trailing whitespace. -/
def pyStrip (s : String) : String :=
  ⟨((s.data.dropWhile Char.isWhitespace).reverse.dropWhile Char.isWhitespace).reverse⟩

/-- Python `str.split("\t")`: split on every tab character; yields one (possibly
empty) field more than the number of tabs. -/
def splitOnTab : List Char → List (List Char)
  | [] => [[]]
  | c :: rest =>
    if c = '\t' then [] :: splitOnTab rest
    else
      match splitOnTab rest with
      | [] => [[c]]
      | w :: ws => (c :: w) :: ws

/-- Python `s.startswith(t)`. -/
def pyStartsWith (s t : String) : Bool := s.data.take t.data.length == t.data

/-- Python `str.isalpha()`: nonempty and every character alphabetic. -/
def isAlphaStr (s : String) : Bool := s.data.length != 0 && s.data.all Char.isAlpha

/-! ## `most_frequent_nouns` -/

/-- One line of the tagged corpus: `line.strip().lower().split("\t")`, requiring
exactly two fields (otherwise the `ValueError` of tuple unpacking is caught and
the line is skipped, modelled as `none`). -/
def splitTagLine (line : String) : Option (String × String) :=
  match splitOnTab (pyLower (pyStrip line)).data with
  | [token, tag] => some (⟨token⟩, ⟨tag⟩)
  | _ => none

/-- `Counter[token] += 1`: association list keeping keys in first-encounter
order, as a Python dict does. -/
def incr : List (String × Nat) → String → List (String × Nat)
  | [], k => [(k, 1)]
  | (k', n) :: rest, k =>
    if k' = k then (k', n + 1) :: rest else (k', n) :: incr rest k

/-- The body of the corpus loop of `most_frequent_nouns`: tally the token when
the line has exactly two fields and the tag starts with `"nn"`. -/
def tallyLine (c : List (String × Nat)) (line : String) : List (String × Nat) :=
  match splitTagLine line with
  | some (token, tag) => if pyStartsWith tag "nn" then incr c token else c
  | none => c

/-- The raw noun `Counter` built from all lines of the tagged corpus. -/
def countNouns (lines : List String) : List (String × Nat) :=
  lines.foldl tallyLine []

/-- The counter after the post-filter `del` loop removing every noun with a
non-alphabetic character. -/
def nounFrequencies (lines : List String) : List (String × Nat) :=
  (countNouns lines).filter (fun p => isAlphaStr p.1)

/-- Insert an entry in front of the first entry whose count is not larger:
the insertion step of a stable descending sort, matching the stable tie-break
of `Counter.most_common`. -/
def insertDesc (p : String × Nat) : List (String × Nat) → List (String × Nat)
  | [] => [p]
  | q :: rest => if q.2 ≤ p.2 then p :: q :: rest else q :: insertDesc p rest

/-- Stable sort by descending count: `Counter.most_common` keeps entries of
equal count in first-encounter order. -/
def sortDesc : List (String × Nat) → List (String × Nat)
  | [] => []
  | p :: rest => insertDesc p (sortDesc rest)

/-- `most_frequent_nouns`: the truncation guard is Python's `if top_n:`, which
is false both for `None` and for `0`. -/
def most_frequent_nouns (lines : List String) (top_n : Option Nat) :
    List (String × Nat) :=
  match top_n with
  | some n =>
    if n ≠ 0 then (sortDesc (nounFrequencies lines)).take n
    else nounFrequencies lines
  | none => nounFrequencies lines

/-! ## `process_sentence` -/

/-- A syntactic child of a chunk head, as exposed by the external parser:
surface text and dependency label. -/
structure Child where
  text : String
  dep : String

/-- A noun chunk: the head token's surface text and its ordered children. -/
structure NounChunk where
  rootText : String
  children : List Child

/-- The closed set of possessive pronouns of `process_sentence`. -/
def possessives : List String := ["my", "your", "his", "her", "its", "their", "our"]

/-- The child scan of `process_sentence`: skip non-alphabetic children, stop at
the first child whose relation is `det` or `poss`, normalizing a possessive
outside the closed set to `"other_possessive"`; `none` when the loop finishes
without a break. -/
def scanChildren : List Child → Option String
  | [] => none
  | c :: rest =>
    if isAlphaStr c.text then
      if c.dep = "det" then some (pyLower c.text)
      else if c.dep = "poss" then
        some (if pyLower c.text ∈ possessives then pyLower c.text
              else "other_possessive")
      else scanChildren rest
    else scanChildren rest

/-- One chunk of the loop body of `process_sentence`: skip chunks whose
lowercased head is not a target noun; otherwise the `for ... else` yields
exactly one pair, with `"no_article"` when the scan found nothing. -/
def classifyChunk (targets : List String) (ch : NounChunk) :
    Option (String × String) :=
  if pyLower ch.rootText ∈ targets then
    some (pyLower ch.rootText, (scanChildren ch.children).getD "no_article")
  else none

/-- All pairs yielded by `process_sentence` for one parsed sentence. -/
def process_sentence (targets : List String) (chunks : List NounChunk) :
    List (String × String) :=
  chunks.filterMap (classifyChunk targets)

/-! ## The aggregation and hapax merge of `main` -/

/-- Number of `(noun, label)` observations in the stream. -/
def countObs (obs : List (String × String)) (noun label : String) : Nat :=
  (obs.filter (fun o => o.1 == noun && o.2 == label)).length

/-- First-encounter deduplication (order of column creation). -/
def dedupFirstAux (seen : List String) : List String → List String
  | [] => []
  | x :: xs =>
    if x ∈ seen then dedupFirstAux seen xs else x :: dedupFirstAux (x :: seen) xs

/-- Deduplicate a list keeping the first occurrence of each element. -/
def dedupFirst (l : List String) : List String := dedupFirstAux [] l

/-- The pandas DataFrame of `main` after `.T.fillna(0).astype(int)`: rows are
the target nouns, and each column is a label together with its integer vector
of cells, stored as a function from noun to count. -/
structure Table where
  rows : List String
  colData : List (String × (String → Nat))

/-- The column labels of the table. -/
def Table.colLabels (t : Table) : List String := t.colData.map (fun p => p.1)

/-- The grand total of one column: `nouns_articles.sum(0)` for that column. -/
def colSum (rows : List String) (f : String → Nat) : Nat := (rows.map f).sum

/-- `pd.DataFrame({noun: Counter() for noun in nouns} after the observation
loop).T.fillna(0).astype(int)`: one row per target noun, one column per label
observed at least once, cells counting the observations. -/
def buildTable (targets : List String) (obs : List (String × String)) : Table :=
  { rows := targets
    colData := (dedupFirst (obs.map (fun o => o.2))).map
      (fun label => (label, fun noun => countObs obs noun label)) }

/-- `nouns_articles.columns[nouns_articles.sum(0) == 1]`: labels of the columns
whose grand total is exactly 1. -/
def Table.hapaxLabels (t : Table) : List String :=
  (t.colData.filter (fun p => colSum t.rows p.2 == 1)).map (fun p => p.1)

/-- `nouns_articles[hapaxes].sum(1)` at one row: the row's sum over the hapax
columns. -/
def Table.hapaxRowSum (t : Table) (noun : String) : Nat :=
  ((t.colData.filter (fun p => t.hapaxLabels.contains p.1)).map
    (fun p => p.2 noun)).sum

/-- `nouns_articles["no_article"] += nouns_articles[hapaxes].sum(1)`: the
column list after adding the hapax row sums into the `"no_article"` column. -/
def Table.updateNoArticle (t : Table) : List (String × (String → Nat)) :=
  t.colData.map (fun p =>
    if p.1 = "no_article" then (p.1, fun noun => p.2 noun + t.hapaxRowSum noun)
    else p)

/-- The table after the update and `drop(columns=hapaxes, inplace=True)`. -/
def Table.merged (t : Table) : Table :=
  { rows := t.rows
    colData := t.updateNoArticle.filter (fun p => !(t.hapaxLabels.contains p.1)) }

/-- The hapax-merge step of `main` (lines 133-135).  Accessing
`nouns_articles["no_article"]` raises `KeyError` when that column does not
exist; this failure is modelled as `none`. -/
def mergeHapaxes (t : Table) : Option Table :=
  if "no_article" ∈ t.colLabels then some t.merged else none

/-- One cell of the table (0 outside the existing columns). -/
def Table.cell (t : Table) (noun label : String) : Nat :=
  match t.colData.find? (fun p => p.1 == label) with
  | some p => p.2 noun
  | none => 0

/-- The sum of one row across all columns. -/
def Table.rowTotal (t : Table) (noun : String) : Nat :=
  (t.colData.map (fun p => p.2 noun)).sum

/-- The sum of all cells of the table. -/
def Table.grandTotal (t : Table) : Nat :=
  (t.rows.map (fun noun => t.rowTotal noun)).sum

/-! ## The corpus loop of `main` -/

/-- The observation stream produced by the sentence loop of `main` when every
sentence parses. -/
def corpusObservations (targets : List String) (corpus : List (List NounChunk)) :
    List (String × String) :=
  (corpus.map (process_sentence targets)).flatten

/-- Number of noun-chunk occurrences in the parsed corpus whose lowercased head
is `n`. -/
def chunkCount (corpus : List (List NounChunk)) (n : String) : Nat :=
  (corpus.map (fun s => (s.filter (fun ch => pyLower ch.rootText == n)).length)).sum

/-- The sentence loop of `main` over parser outcomes (`none` = the parser
raised on that sentence).  `main` wraps `nlp(sentence)` in no handler, so a
parser exception propagates and the whole run aborts with no table. -/
def collectObservations (targets : List String) :
    List (Option (List NounChunk)) → Option (List (String × String))
  | [] => some []
  | none :: _ => none
  | some chunks :: rest =>
    match collectObservations targets rest with
    | some obs => some (process_sentence targets chunks ++ obs)
    | none => none

/-! ## Concrete instances used by witnesses and counterexamples -/

/-- A table whose `"no_article"` column is itself a hapax column. -/
def exHapaxTable : Table :=
  { rows := ["dog"]
    colData := [("no_article", fun _ => 1), ("the", fun _ => 2)] }

/-- A table whose `"no_article"` column is not a hapax column but a hapax
column (`"an"`) exists. -/
def exSafeTable : Table :=
  { rows := ["dog"]
    colData := [("no_article", fun _ => 2), ("the", fun _ => 3), ("an", fun _ => 1)] }

/-- A chunk headed by `dog` with a determiner child. -/
def exChunkDet : NounChunk := { rootText := "dog", children := [{ text := "The", dep := "det" }] }

/-- A chunk headed by `dog` with a closed-set possessive child. -/
def exChunkPoss : NounChunk := { rootText := "dog", children := [{ text := "My", dep := "poss" }] }

/-- A chunk headed by `dog` with no children. -/
def exChunkBare : NounChunk := { rootText := "dog", children := [] }

/-! ## Generic list lemmas -/

theorem map_congr_mem {α β : Type} {l : List α} {f g : α → β}
    (h : ∀ a ∈ l, f a = g a) : l.map f = l.map g := by
  induction l with
  | nil => rfl
  | cons x xs ih =>
    simp only [List.map_cons]
    rw [h x (by simp), ih (fun a ha => h a (by simp [ha]))]

theorem sum_map_add_split {α : Type} (l : List α) (f g : α → Nat) :
    (l.map (fun x => f x + g x)).sum = (l.map f).sum + (l.map g).sum := by
  induction l with
  | nil => simp
  | cons x xs ih => simp [ih]; omega

theorem sum_map_filter_partition {α : Type} (l : List α) (q : α → Bool) (f : α → Nat) :
    ((l.filter q).map f).sum + ((l.filter (fun x => !(q x))).map f).sum
      = (l.map f).sum := by
  induction l with
  | nil => simp
  | cons x xs ih =>
    cases hq : q x <;> simp [List.filter_cons, hq] <;> omega

theorem sum_map_if_label (l : List (String × (String → Nat))) (x : String)
    (g : String × (String → Nat) → Nat) (c : Nat)
    (hnodup : (l.map (fun p => p.1)).Nodup) (hx : x ∈ l.map (fun p => p.1)) :
    (l.map (fun p => if p.1 = x then g p + c else g p)).sum = (l.map g).sum + c := by
  induction l with
  | nil => simp at hx
  | cons p rest ih =>
    simp only [List.map_cons, List.nodup_cons, List.mem_cons] at hnodup hx
    by_cases hp : p.1 = x
    · have hrest : rest.map (fun q => if q.1 = x then g q + c else g q) = rest.map g := by
        refine map_congr_mem (fun q hq => ?_)
        have hqx : q.1 ≠ x := by
          intro hqe
          exact hnodup.1 (hp ▸ hqe ▸ List.mem_map_of_mem (fun p => p.1) hq)
        simp [hqx]
      simp only [List.map_cons, List.sum_cons, if_pos hp, hrest]
      omega
    · have hx' : x ∈ rest.map (fun p => p.1) := by
        rcases hx with h | h
        · exact absurd h.symm hp
        · exact h
      simp only [List.map_cons, List.sum_cons, if_neg hp, ih hnodup.2 hx']
      omega

theorem map_fst_filter (l : List (String × (String → Nat))) (keep : String → Bool) :
    ((l.filter (fun p => keep p.1)).map (fun p => p.1))
      = (l.map (fun p => p.1)).filter keep := by
  induction l with
  | nil => rfl
  | cons p rest ih =>
    cases hk : keep p.1 <;> simp [List.filter_cons, hk, ih]

theorem filter_map_label_comm (l : List (String × (String → Nat)))
    (upd : String × (String → Nat) → String × (String → Nat))
    (hupd : ∀ p, (upd p).1 = p.1) (keep : String → Bool) :
    (l.map upd).filter (fun p => keep p.1) = (l.filter (fun p => keep p.1)).map upd := by
  induction l with
  | nil => rfl
  | cons p rest ih =>
    cases hk : keep p.1 <;>
      simp [List.filter_cons, hupd, hk, ih]

theorem find?_of_mem_labels (l : List (String × (String → Nat))) (x : String)
    (hx : x ∈ l.map (fun p => p.1)) :
    ∃ p, l.find? (fun q => q.1 == x) = some p ∧ p.1 = x := by
  induction l with
  | nil => simp at hx
  | cons p rest ih =>
    by_cases hpx : p.1 = x
    · exact ⟨p, by simp [List.find?_cons, hpx], hpx⟩
    · simp only [List.map_cons, List.mem_cons] at hx
      rcases hx with h | h
      · exact absurd h.symm hpx
      · rcases ih h with ⟨q, hq, hqx⟩
        exact ⟨q, by simp [List.find?_cons, hpx, hq], hqx⟩

theorem find?_filter_map_label (l : List (String × (String → Nat)))
    (upd : String × (String → Nat) → String × (String → Nat))
    (hupd : ∀ p, (upd p).1 = p.1) (keep : String → Bool) (x : String)
    (hkx : keep x = true) :
    ((l.map upd).filter (fun p => keep p.1)).find? (fun p => p.1 == x)
      = (l.find? (fun p => p.1 == x)).map upd := by
  induction l with
  | nil => rfl
  | cons p rest ih =>
    by_cases hpx : p.1 = x
    · have hkeep : keep (upd p).1 = true := by rw [hupd, hpx]; exact hkx
      simp [List.filter_cons, hkeep, List.find?_cons, hupd, hpx, hkx]
    · cases hk : keep p.1
      · have hk' : keep (upd p).1 = false := by rw [hupd]; exact hk
        simp [List.filter_cons, hk', hk, List.find?_cons, hpx, ih]
      · have hk' : keep (upd p).1 = true := by rw [hupd]; exact hk
        simp [List.filter_cons, hk', hk, List.find?_cons, hupd, hpx, ih]

/-! ## Deduplication lemmas -/

theorem mem_dedupFirstAux (x : String) (l : List String) : ∀ seen,
    x ∈ dedupFirstAux seen l ↔ x ∈ l ∧ x ∉ seen := by
  induction l with
  | nil => intro seen; simp [dedupFirstAux]
  | cons y ys ih =>
    intro seen
    by_cases hy : y ∈ seen
    · simp only [dedupFirstAux, if_pos hy, ih, List.mem_cons]
      constructor
      · rintro ⟨h1, h2⟩; exact ⟨Or.inr h1, h2⟩
      · rintro ⟨h1, h2⟩
        rcases h1 with h | h
        · exact absurd (h ▸ hy) h2
        · exact ⟨h, h2⟩
    · simp only [dedupFirstAux, if_neg hy, List.mem_cons, ih]
      constructor
      · rintro (h | ⟨h1, h2⟩)
        · exact ⟨Or.inl h, h ▸ hy⟩
        · exact ⟨Or.inr h1, fun hs => h2 (Or.inr hs)⟩
      · rintro ⟨h1, h2⟩
        rcases h1 with h | h
        · exact Or.inl h
        · by_cases hxy : x = y
          · exact Or.inl hxy
          · exact Or.inr ⟨h, fun hc => hc.elim hxy h2⟩

theorem nodup_dedupFirstAux (l : List String) : ∀ seen,
    (dedupFirstAux seen l).Nodup := by
  induction l with
  | nil => intro seen; simp [dedupFirstAux]
  | cons y ys ih =>
    intro seen
    by_cases hy : y ∈ seen
    · simp [dedupFirstAux, hy, ih]
    · simp only [dedupFirstAux, hy, if_neg, ite_false]
      refine List.nodup_cons.mpr ⟨?_, ih _⟩
      intro hmem
      exact ((mem_dedupFirstAux y ys (y :: seen)).mp hmem).2 (by simp)

theorem mem_dedupFirst (x : String) (l : List String) :
    x ∈ dedupFirst l ↔ x ∈ l := by
  simp [dedupFirst, mem_dedupFirstAux]

theorem nodup_dedupFirst (l : List String) : (dedupFirst l).Nodup :=
  nodup_dedupFirstAux l []

/-! ## Sorting lemmas for `most_frequent_nouns` -/

theorem insertDesc_perm (p : String × Nat) (l : List (String × Nat)) :
    List.Perm (insertDesc p l) (p :: l) := by
  induction l with
  | nil => exact List.Perm.refl _
  | cons q rest ih =>
    by_cases h : q.2 ≤ p.2
    · simp [insertDesc, h]
    · simp only [insertDesc, if_neg h]
      exact (List.Perm.cons q ih).trans (List.Perm.swap p q rest)

theorem sortDesc_perm (l : List (String × Nat)) : List.Perm (sortDesc l) l := by
  induction l with
  | nil => exact List.Perm.refl _
  | cons p rest ih =>
    exact (insertDesc_perm p (sortDesc rest)).trans (List.Perm.cons p ih)

theorem insertDesc_pairwise (p : String × Nat) (l : List (String × Nat))
    (h : l.Pairwise (fun a b => b.2 ≤ a.2)) :
    (insertDesc p l).Pairwise (fun a b => b.2 ≤ a.2) := by
  induction l with
  | nil => simp [insertDesc]
  | cons q rest ih =>
    rcases List.pairwise_cons.mp h with ⟨hq, hrest⟩
    by_cases hle : q.2 ≤ p.2
    · simp only [insertDesc, if_pos hle]
      refine List.pairwise_cons.mpr ⟨?_, h⟩
      intro b hb
      rcases List.mem_cons.mp hb with rfl | hb'
      · exact hle
      · exact le_trans (hq b hb') hle
    · simp only [insertDesc, if_neg hle]
      refine List.pairwise_cons.mpr ⟨?_, ih hrest⟩
      intro b hb
      have hmem := (insertDesc_perm p rest).mem_iff.mp hb
      rcases List.mem_cons.mp hmem with rfl | hb'
      · exact Nat.le_of_lt (Nat.lt_of_not_le hle)
      · exact hq b hb'

theorem sortDesc_pairwise (l : List (String × Nat)) :
    (sortDesc l).Pairwise (fun a b => b.2 ≤ a.2) := by
  induction l with
  | nil => simp [sortDesc]
  | cons p rest ih => exact insertDesc_pairwise p (sortDesc rest) ih

theorem insertDesc_filter_count (p : String × Nat) (l : List (String × Nat)) (v : Nat) :
    (insertDesc p l).filter (fun q => q.2 == v)
      = if p.2 = v then p :: l.filter (fun q => q.2 == v)
        else l.filter (fun q => q.2 == v) := by
  induction l with
  | nil => by_cases h : p.2 = v <;> simp [insertDesc, List.filter_cons, h]
  | cons q rest ih =>
    by_cases hle : q.2 ≤ p.2
    · rw [show insertDesc p (q :: rest) = p :: q :: rest by
        simp only [insertDesc, if_pos hle]]
      by_cases hpv : p.2 = v <;> by_cases hqv : q.2 = v <;>
        simp [List.filter_cons, hpv, hqv]
    · rw [show insertDesc p (q :: rest) = q :: insertDesc p rest by
        simp only [insertDesc, if_neg hle]]
      have hlt : p.2 < q.2 := Nat.lt_of_not_le hle
      by_cases hpv : p.2 = v
      · have hqv : q.2 ≠ v := by omega
        have hq : (q.2 == v) = false := beq_eq_false_iff_ne.mpr hqv
        simp only [List.filter_cons, hq, ih, if_pos hpv, Bool.false_eq_true, if_false]
      · by_cases hqv : q.2 = v
        · have hq : (q.2 == v) = true := beq_iff_eq.mpr hqv
          simp only [List.filter_cons, hq, ih, if_neg hpv, if_true]
        · have hq : (q.2 == v) = false := beq_eq_false_iff_ne.mpr hqv
          simp only [List.filter_cons, hq, ih, if_neg hpv, Bool.false_eq_true, if_false]

theorem sortDesc_filter_count (l : List (String × Nat)) (v : Nat) :
    (sortDesc l).filter (fun q => q.2 == v) = l.filter (fun q => q.2 == v) := by
  induction l with
  | nil => rfl
  | cons p rest ih =>
    by_cases hpv : p.2 = v <;>
      simp [sortDesc, insertDesc_filter_count, hpv, List.filter_cons, ih]

/-! ## Child-scan lemmas for `process_sentence` -/

theorem scanChildren_cons_nonalpha (c : Child) (rest : List Child)
    (h : isAlphaStr c.text = false) :
    scanChildren (c :: rest) = scanChildren rest := by
  simp [scanChildren, h]

theorem scanChildren_cons_other (c : Child) (rest : List Child)
    (hd : c.dep ≠ "det") (hp : c.dep ≠ "poss") :
    scanChildren (c :: rest) = scanChildren rest := by
  by_cases ha : isAlphaStr c.text <;> simp [scanChildren, ha, hd, hp]

theorem scanChildren_append_skip (pre rest : List Child)
    (h : ∀ c' ∈ pre, isAlphaStr c'.text = false ∨ (c'.dep ≠ "det" ∧ c'.dep ≠ "poss")) :
    scanChildren (pre ++ rest) = scanChildren rest := by
  induction pre with
  | nil => rfl
  | cons c cs ih =>
    rcases h c (by simp) with ha | ⟨hd, hp⟩
    · rw [List.cons_append, scanChildren_cons_nonalpha c _ ha,
        ih (fun c' hc' => h c' (by simp [hc']))]
    · rw [List.cons_append, scanChildren_cons_other c _ hd hp,
        ih (fun c' hc' => h c' (by simp [hc']))]

theorem scanChildren_det (c : Child) (rest : List Child)
    (ha : isAlphaStr c.text = true) (hd : c.dep = "det") :
    scanChildren (c :: rest) = some (pyLower c.text) := by
  simp [scanChildren, ha, hd]

theorem scanChildren_poss (c : Child) (rest : List Child)
    (ha : isAlphaStr c.text = true) (hp : c.dep = "poss") :
    scanChildren (c :: rest)
      = some (if pyLower c.text ∈ possessives then pyLower c.text
              else "other_possessive") := by
  have hd : c.dep ≠ "det" := by rw [hp]; decide
  simp [scanChildren, ha, hd, hp]

theorem scanChildren_none (children : List Child)
    (h : ∀ c' ∈ children, isAlphaStr c'.text = false ∨ (c'.dep ≠ "det" ∧ c'.dep ≠ "poss")) :
    scanChildren children = none := by
  have happ := scanChildren_append_skip children [] h
  simpa using happ

/-! ## Observation-counting lemmas -/

theorem countObs_cons (o : String × String) (obs : List (String × String))
    (noun label : String) :
    countObs (o :: obs) noun label
      = countObs obs noun label + (if o.1 = noun ∧ o.2 = label then 1 else 0) := by
  by_cases h1 : o.1 = noun <;> by_cases h2 : o.2 = label <;>
    simp [countObs, List.filter_cons, h1, h2]

theorem sum_indicator_one (L : List String) (x : String)
    (hnodup : L.Nodup) (hx : x ∈ L) :
    (L.map (fun y => if x = y then 1 else 0)).sum = 1 := by
  induction L with
  | nil => simp at hx
  | cons y ys ih =>
    rcases List.nodup_cons.mp hnodup with ⟨hy, hys⟩
    by_cases hxy : x = y
    · subst hxy
      have hz : (ys.map (fun y' => if x = y' then 1 else 0)).sum = 0 := by
        refine List.sum_eq_zero (fun m hm => ?_)
        rcases List.mem_map.mp hm with ⟨y', hy', rfl⟩
        have hne : x ≠ y' := fun he => hy (he ▸ hy')
        simp [hne]
      simp [hz]
    · have hx' : x ∈ ys := by
        rcases List.mem_cons.mp hx with h | h
        · exact absurd h hxy
        · exact h
      simp [hxy, ih hys hx']

theorem sum_countObs (obs : List (String × String)) (n : String) (L : List String)
    (hnodup : L.Nodup) (hcover : ∀ o ∈ obs, o.1 = n → o.2 ∈ L) :
    (L.map (fun label => countObs obs n label)).sum
      = (obs.filter (fun o => o.1 == n)).length := by
  induction obs with
  | nil => simp [countObs]
  | cons o rest ih =>
    have hrest := ih (fun o' ho' hn' => hcover o' (by simp [ho']) hn')
    have hsplit : L.map (fun label => countObs (o :: rest) n label)
        = L.map (fun label =>
            countObs rest n label + (if o.1 = n ∧ o.2 = label then 1 else 0)) :=
      map_congr_mem (fun label _ => countObs_cons o rest n label)
    rw [hsplit, sum_map_add_split]
    by_cases hon : o.1 = n
    · have hrw : (fun label => if o.1 = n ∧ o.2 = label then (1 : Nat) else 0)
          = (fun label => if o.2 = label then 1 else 0) := by
        funext label; simp [hon]
      rw [hrest, hrw, sum_indicator_one L o.2 hnodup (hcover o (by simp) hon)]
      simp [List.filter_cons, hon]
    · have hind : (L.map (fun label => if o.1 = n ∧ o.2 = label then (1 : Nat) else 0)).sum = 0 := by
        refine List.sum_eq_zero (fun m hm => ?_)
        rcases List.mem_map.mp hm with ⟨label, _, rfl⟩
        simp [hon]
      rw [hrest, hind]
      simp [List.filter_cons, hon]

theorem process_sentence_filter_noun (targets : List String) (chunks : List NounChunk)
    (n : String) (hn : n ∈ targets) :
    ((process_sentence targets chunks).filter (fun o => o.1 == n)).length
      = (chunks.filter (fun ch => pyLower ch.rootText == n)).length := by
  induction chunks with
  | nil => rfl
  | cons ch rest ih =>
    simp only [process_sentence, List.filterMap_cons] at ih ⊢
    by_cases hmem : pyLower ch.rootText ∈ targets
    · simp only [classifyChunk, if_pos hmem]
      by_cases hch : pyLower ch.rootText = n <;>
        simp [List.filter_cons, hch, ih]
    · have hch : pyLower ch.rootText ≠ n := fun h => hmem (h ▸ hn)
      simp only [classifyChunk, if_neg hmem]
      simp [List.filter_cons, hch, ih]

theorem length_filter_flatten {α : Type} (L : List (List α)) (q : α → Bool) :
    ((L.flatten).filter q).length = (L.map (fun l => (l.filter q).length)).sum := by
  induction L with
  | nil => rfl
  | cons l ls ih =>
    simp only [List.flatten_cons, List.filter_append, List.length_append, ih,
      List.map_cons, List.sum_cons]

theorem process_sentence_empty_targets (chunks : List NounChunk) :
    process_sentence [] chunks = [] := by
  induction chunks with
  | nil => rfl
  | cons ch rest ih =>
    simp [process_sentence, List.filterMap_cons, classifyChunk]

/-! ## Hapax-merge lemmas -/

theorem mergeHapaxes_eq_some (t : Table) (h : "no_article" ∈ t.colLabels) :
    mergeHapaxes t = some t.merged := by
  simp [mergeHapaxes, h]

theorem mergeHapaxes_eq_none (t : Table) (h : "no_article" ∉ t.colLabels) :
    mergeHapaxes t = none := by
  simp [mergeHapaxes, h]

theorem map_fst_filter_map (l : List (String × (String → Nat)))
    (upd : String × (String → Nat) → String × (String → Nat))
    (hupd : ∀ p, (upd p).1 = p.1) (keep : String → Bool) :
    (((l.map upd).filter (fun p => keep p.1)).map (fun p => p.1))
      = (l.map (fun p => p.1)).filter keep := by
  induction l with
  | nil => rfl
  | cons p rest ih =>
    cases hk : keep p.1 <;> simp [List.filter_cons, hupd, hk, ih]

theorem merged_colLabels (t : Table) :
    t.merged.colLabels = t.colLabels.filter (fun c => !(t.hapaxLabels.contains c)) := by
  show (((t.colData.map (fun p =>
      if p.1 = "no_article" then (p.1, fun noun => p.2 noun + t.hapaxRowSum noun)
      else p)).filter (fun p => !(t.hapaxLabels.contains p.1))).map (fun p => p.1))
    = (t.colData.map (fun p => p.1)).filter (fun c => !(t.hapaxLabels.contains c))
  exact map_fst_filter_map t.colData
    (fun p => if p.1 = "no_article"
      then (p.1, fun noun => p.2 noun + t.hapaxRowSum noun) else p)
    (fun p => by by_cases h : p.1 = "no_article" <;> simp [h])
    (fun c => !(t.hapaxLabels.contains c))

theorem sum_map_snd_update (l : List (String × (String → Nat))) (hap : List String)
    (na : String) (h : String → Nat) (n : String)
    (hnodup : (l.map (fun p => p.1)).Nodup)
    (hna : na ∈ l.map (fun p => p.1))
    (hnh : hap.contains na = false) :
    (((l.map (fun p => if p.1 = na then (p.1, fun m => p.2 m + h m) else p)).filter
        (fun p => !(hap.contains p.1))).map (fun p => p.2 n)).sum
      = ((l.filter (fun p => !(hap.contains p.1))).map (fun p => p.2 n)).sum + h n := by
  induction l with
  | nil => simp at hna
  | cons p rest ih =>
    simp only [List.map_cons, List.nodup_cons, List.mem_cons] at hnodup hna
    by_cases hp : p.1 = na
    · have hrest_eq : rest.map
          (fun q => if q.1 = na then (q.1, fun m => q.2 m + h m) else q) = rest := by
        have hq : ∀ q ∈ rest,
            (if q.1 = na then (q.1, fun m => q.2 m + h m) else q) = q := by
          intro q hq
          have hne : q.1 ≠ na := fun he =>
            hnodup.1 (hp ▸ he ▸ List.mem_map_of_mem (fun p => p.1) hq)
          simp [hne]
        rw [map_congr_mem hq]
        exact List.map_id _
      simp only [List.map_cons, if_pos hp, hrest_eq, List.filter_cons]
      simp only [hp, hnh, Bool.not_false, if_true, List.map_cons, List.sum_cons]
      omega
    · have hna' : na ∈ rest.map (fun p => p.1) := by
        rcases hna with he | hm
        · exact absurd he.symm hp
        · exact hm
      simp only [List.map_cons, if_neg hp, List.filter_cons]
      cases hk : (!(hap.contains p.1)) <;>
        (simp only [if_true, if_false, Bool.false_eq_true, List.map_cons, List.sum_cons,
          ih hnodup.2 hna']
         try omega)

theorem merged_rowTotal (t : Table)
    (hnodup : t.colLabels.Nodup)
    (hna : "no_article" ∈ t.colLabels)
    (hnh : "no_article" ∉ t.hapaxLabels) (n : String) :
    t.merged.rowTotal n = t.rowTotal n := by
  have hc : t.hapaxLabels.contains "no_article" = false := by simp [hnh]
  have hmain := sum_map_snd_update t.colData t.hapaxLabels "no_article"
    t.hapaxRowSum n hnodup hna hc
  have hpart := sum_map_filter_partition t.colData
    (fun p => t.hapaxLabels.contains p.1) (fun p => p.2 n)
  show (t.merged.colData.map (fun p => p.2 n)).sum = (t.colData.map (fun p => p.2 n)).sum
  unfold Table.merged Table.updateNoArticle
  rw [hmain]
  unfold Table.hapaxRowSum
  omega

theorem merged_cell_noArticle (t : Table)
    (hna : "no_article" ∈ t.colLabels)
    (hnh : "no_article" ∉ t.hapaxLabels) (n : String) :
    t.merged.cell n "no_article" = t.cell n "no_article" + t.hapaxRowSum n := by
  have hc : ((fun c => !(t.hapaxLabels.contains c)) "no_article") = true := by
    simp [hnh]
  unfold Table.cell Table.merged Table.updateNoArticle
  dsimp only
  rw [find?_filter_map_label t.colData
    (fun p => if p.1 = "no_article"
      then (p.1, fun noun => p.2 noun + t.hapaxRowSum noun) else p)
    (fun p => by by_cases h : p.1 = "no_article" <;> simp [h])
    (fun c => !(t.hapaxLabels.contains c)) "no_article" hc]
  rcases find?_of_mem_labels t.colData "no_article" hna with ⟨p, hp, hp1⟩
  rw [hp]
  simp [hp1]

theorem merged_colSum (t : Table)
    (hge : ∀ p ∈ t.colData, 1 ≤ colSum t.rows p.2) :
    ∀ p ∈ t.merged.colData, 2 ≤ colSum t.rows p.2 := by
  intro p hp
  rcases List.mem_filter.mp hp with ⟨hp1, hp2⟩
  rcases List.mem_map.mp hp1 with ⟨q, hq, rfl⟩
  have hlab : ((if q.1 = "no_article"
      then (q.1, fun m => q.2 m + t.hapaxRowSum m) else q)).1 = q.1 := by
    by_cases h : q.1 = "no_article" <;> simp [h]
  rw [hlab] at hp2
  have hnot : q.1 ∉ t.hapaxLabels := by
    intro hc
    rw [(by simp [hc] : t.hapaxLabels.contains q.1 = true)] at hp2
    exact absurd hp2 (by decide)
  have hne1 : colSum t.rows q.2 ≠ 1 := by
    intro he
    have hqf : q ∈ t.colData.filter (fun p => colSum t.rows p.2 == 1) :=
      List.mem_filter.mpr ⟨hq, by simp [he]⟩
    refine hnot ?_
    unfold Table.hapaxLabels
    exact List.mem_map_of_mem (fun p : String × (String → Nat) => p.1) hqf
  have hge2 : 2 ≤ colSum t.rows q.2 := by
    have := hge q hq
    omega
  by_cases h : q.1 = "no_article"
  · simp only [if_pos h]
    have : colSum t.rows (fun m => q.2 m + t.hapaxRowSum m)
        = colSum t.rows q.2 + colSum t.rows t.hapaxRowSum := by
      unfold colSum
      exact sum_map_add_split t.rows q.2 t.hapaxRowSum
    simp only [this]
    omega
  · simp only [if_neg h]
    exact hge2

theorem merge_of_no_hapax (t : Table)
    (hna : "no_article" ∈ t.colLabels)
    (h : ∀ p ∈ t.colData, colSum t.rows p.2 ≠ 1) :
    mergeHapaxes t = some t := by
  have hfil : t.colData.filter (fun p => colSum t.rows p.2 == 1) = [] := by
    rw [List.filter_eq_nil_iff]
    intro p hp
    simp [h p hp]
  have hlab : t.hapaxLabels = [] := by
    unfold Table.hapaxLabels
    rw [hfil]
    rfl
  have hrs : ∀ m, t.hapaxRowSum m = 0 := by
    intro m
    unfold Table.hapaxRowSum
    rw [hlab]
    simp
  have hupd : t.updateNoArticle = t.colData := by
    unfold Table.updateNoArticle
    have hcong : ∀ p ∈ t.colData,
        (if p.1 = "no_article"
          then (p.1, fun noun => p.2 noun + t.hapaxRowSum noun) else p) = p := by
      intro p hp
      by_cases hpn : p.1 = "no_article"
      · have hfn : (fun noun => p.2 noun + t.hapaxRowSum noun) = p.2 := by
          funext m
          simp [hrs]
        simp only [if_pos hpn, hfn]
      · simp [hpn]
    rw [map_congr_mem hcong]
    exact List.map_id _
  have hmerged : t.merged = t := by
    unfold Table.merged
    rw [hupd, hlab]
    cases t with
    | mk rows colData => simp
  rw [mergeHapaxes_eq_some t hna, hmerged]

/-! ## Lemmas on the table built by the aggregation loop -/

theorem buildTable_colLabels (targets : List String) (obs : List (String × String)) :
    (buildTable targets obs).colLabels = dedupFirst (obs.map (fun o => o.2)) := by
  unfold buildTable Table.colLabels
  rw [List.map_map]
  exact List.map_id _

theorem buildTable_rowTotal (targets : List String) (obs : List (String × String))
    (n : String) :
    (buildTable targets obs).rowTotal n = (obs.filter (fun o => o.1 == n)).length := by
  unfold buildTable Table.rowTotal
  rw [List.map_map]
  have hcomp : ((fun p : String × (String → Nat) => p.2 n)
        ∘ (fun label => (label, fun noun => countObs obs noun label)))
      = (fun label : String => countObs obs n label) := rfl
  rw [hcomp]
  exact sum_countObs obs n (dedupFirst (obs.map (fun o => o.2))) (nodup_dedupFirst _)
    (fun o ho _ => (mem_dedupFirst _ _).mpr (List.mem_map_of_mem (fun o => o.2) ho))

theorem mergeHapaxes_buildTable_none (targets : List String)
    (obs : List (String × String))
    (h : "no_article" ∉ obs.map (fun o => o.2)) :
    mergeHapaxes (buildTable targets obs) = none := by
  apply mergeHapaxes_eq_none
  rw [buildTable_colLabels]
  exact fun hc => h ((mem_dedupFirst _ _).mp hc)

/-! ## Lemmas on the sentence loop -/

theorem collectObservations_abort (targets : List String)
    (pre post : List (Option (List NounChunk))) :
    collectObservations targets (pre ++ none :: post) = none := by
  induction pre with
  | nil => rfl
  | cons s rest ih =>
    cases s with
    | none => rfl
    | some chunks => simp [collectObservations, ih]

theorem collectObservations_success (targets : List String)
    (corpus : List (List NounChunk)) :
    collectObservations targets (corpus.map some)
      = some (corpusObservations targets corpus) := by
  induction corpus with
  | nil => rfl
  | cons s rest ih =>
    simp [collectObservations, corpusObservations, ih, List.flatten_cons]

theorem corpusObservations_empty_targets (corpus : List (List NounChunk)) :
    corpusObservations [] corpus = [] := by
  induction corpus with
  | nil => rfl
  | cons s rest ih =>
    show ((s :: rest).map (process_sentence [])).flatten = []
    rw [List.map_cons, List.flatten_cons, process_sentence_empty_targets s,
      List.nil_append]
    exact ih

/-! ## Claim C1 -/

/-- C1 (amended): whenever the merge step runs without a `KeyError`, every
hapax column's count is added into the same row's `"no_article"` cell
(`hapaxRowSum` is that row's total over the hapax columns) and exactly the
hapax-labelled columns are removed; therefore the `"no_article"` column
survives into the output precisely when it is not itself a hapax column.
When `"no_article"` is itself hapax it is dropped from the output along with
the other hapax columns, not kept as a no-op. -/
theorem hapax_merge_fold (t : Table)
    (hna : "no_article" ∈ t.colLabels)
    (hnh : "no_article" ∉ t.hapaxLabels) :
    mergeHapaxes t = some t.merged ∧
    t.merged.colLabels = t.colLabels.filter (fun c => !(t.hapaxLabels.contains c)) ∧
    "no_article" ∈ t.merged.colLabels ∧
    (∀ n, t.merged.cell n "no_article" = t.cell n "no_article" + t.hapaxRowSum n) := by
  refine ⟨mergeHapaxes_eq_some t hna, merged_colLabels t, ?_,
    fun n => merged_cell_noArticle t hna hnh n⟩
  rw [merged_colLabels]
  exact List.mem_filter.mpr ⟨hna, by simp [hnh]⟩

/-- C1 counterexample: in `exHapaxTable` the `"no_article"` column has grand
total exactly 1, so it is itself a hapax column; the merge removes it and the
surviving columns are `["the"]` — `"no_article"` does not appear among the
output columns, contradicting the claim that it always survives. -/
theorem hapax_merge_drops_no_article_cex :
    exHapaxTable.colLabels = ["no_article", "the"] ∧
    (mergeHapaxes exHapaxTable).map Table.colLabels = some ["the"] :=
  ⟨by decide, by decide⟩

/-- C1 witness: on `exSafeTable` (hapax column `"an"`, non-hapax
`"no_article"`) the merge keeps `"no_article"`, drops `"an"`, and adds the
hapax row sum 1 into the `"no_article"` cell of row `"dog"` (2 + 1 = 3). -/
theorem hapax_merge_fold_witness :
    "no_article" ∈ exSafeTable.colLabels ∧
    "no_article" ∉ exSafeTable.hapaxLabels ∧
    (mergeHapaxes exSafeTable).map Table.colLabels = some ["no_article", "the"] ∧
    exSafeTable.merged.cell "dog" "no_article"
      = exSafeTable.cell "dog" "no_article" + exSafeTable.hapaxRowSum "dog" := by
  refine ⟨by decide, by decide, ?_,
    (hapax_merge_fold exSafeTable (by decide) (by decide)).2.2.2 "dog"⟩
  rw [(hapax_merge_fold exSafeTable (by decide) (by decide)).1]
  decide

/-! ## Claim C2 -/

/-- C2 (amended): a requested top-N of 0 is falsy in the code's `if top_n:`
guard, so `most_frequent_nouns` returns the whole frequency table rather than
selecting no nouns; and when the target noun set is genuinely empty, the
classifier emits no observations, the aggregated table has no columns, and
the hapax-merge step then fails with a `KeyError` (modelled as `none`)
instead of yielding the empty table. -/
theorem empty_targets_amended (lines : List String) (corpus : List (List NounChunk)) :
    most_frequent_nouns lines (some 0) = nounFrequencies lines ∧
    mergeHapaxes (buildTable [] (corpusObservations [] corpus)) = none := by
  constructor
  · simp [most_frequent_nouns]
  · apply mergeHapaxes_buildTable_none
    rw [corpusObservations_empty_targets]
    simp

/-- C2 counterexample: with top-N = 0 the claim says no nouns are selected,
but on the single-line corpus `dog\tNN` the code returns the full table
`{"dog": 1}`, not the empty one. -/
theorem top_n_zero_selects_all_cex :
    most_frequent_nouns ["dog\tNN"] (some 0) = [("dog", 1)] := by decide

/-! ## Claim C3 -/

/-- C3 (amended): on a table all of whose columns have grand total at least 1
(the aggregation loop creates a column only on its first observation) and
whose `"no_article"` column is not itself hapax, the merge succeeds and is
idempotent — applying it a second time to the merged table returns that table
unchanged.  The counterexample shows the claim fails as stated when
`"no_article"` is itself a hapax column: the first merge then drops it and a
second application fails instead of being a no-op. -/
theorem hapax_merge_idempotent (t : Table)
    (hge : ∀ p ∈ t.colData, 1 ≤ colSum t.rows p.2)
    (hna : "no_article" ∈ t.colLabels)
    (hnh : "no_article" ∉ t.hapaxLabels) :
    mergeHapaxes t = some t.merged ∧ mergeHapaxes t.merged = some t.merged := by
  refine ⟨mergeHapaxes_eq_some t hna, ?_⟩
  have hna' : "no_article" ∈ t.merged.colLabels := by
    rw [merged_colLabels]
    exact List.mem_filter.mpr ⟨hna, by simp [hnh]⟩
  refine merge_of_no_hapax t.merged hna' ?_
  intro p hp
  have h2 := merged_colSum t hge p hp
  have hrows : t.merged.rows = t.rows := rfl
  rw [hrows]
  omega

/-- C3 counterexample: merging `exHapaxTable` succeeds (removing the hapax
`"no_article"` column), but applying the merge a second time to the result is
not a no-op: it fails (`KeyError`, modelled `none`) because the
`"no_article"` column no longer exists. -/
theorem hapax_merge_not_idempotent_cex :
    (mergeHapaxes exHapaxTable).isSome = true ∧
    ((mergeHapaxes exHapaxTable).bind mergeHapaxes).isNone = true :=
  ⟨by decide, by decide⟩

/-- C3 witness: on `exSafeTable` both merges succeed and the second returns
the merged table unchanged. -/
theorem hapax_merge_idempotent_witness :
    mergeHapaxes exSafeTable = some exSafeTable.merged ∧
    mergeHapaxes exSafeTable.merged = some exSafeTable.merged :=
  hapax_merge_idempotent exSafeTable (by decide) (by decide) (by decide)

/-! ## Claim C4 -/

/-- C4 (amended, two parts): (a) confirmed as stated — for every noun of the
target set, the sum of its row in the pre-merge table equals the number of
noun-chunk occurrences of that noun across the parsed corpus; (b) the merge
only redistributes counts within rows — it preserves every row total and the
grand total — provided the `"no_article"` column is not itself hapax; the
counterexample shows the totals do shrink when it is (the augmented
`"no_article"` column is dropped together with the other hapax columns). -/
theorem row_totals (targets : List String) (corpus : List (List NounChunk))
    (n : String) (hn : n ∈ targets) (t : Table)
    (hnodup : t.colLabels.Nodup)
    (hna : "no_article" ∈ t.colLabels)
    (hnh : "no_article" ∉ t.hapaxLabels) :
    (buildTable targets (corpusObservations targets corpus)).rowTotal n
        = chunkCount corpus n ∧
    (∀ m, t.merged.rowTotal m = t.rowTotal m) ∧
    t.merged.grandTotal = t.grandTotal := by
  refine ⟨?_, fun m => merged_rowTotal t hnodup hna hnh m, ?_⟩
  · rw [buildTable_rowTotal]
    unfold corpusObservations chunkCount
    rw [length_filter_flatten, List.map_map]
    exact congrArg List.sum
      (map_congr_mem (fun s _ => process_sentence_filter_noun targets s n hn))
  · unfold Table.grandTotal
    have hrows : t.merged.rows = t.rows := rfl
    rw [hrows]
    exact congrArg List.sum
      (map_congr_mem (fun r _ => merged_rowTotal t hnodup hna hnh r))

/-- C4 counterexample: in `exHapaxTable` (whose `"no_article"` column is
itself hapax) the pre-merge row total of `"dog"` is 3, but after the merge it
is 2: merging does change a row total (and hence the grand total) in that
case. -/
theorem merge_changes_row_total_cex :
    exHapaxTable.rowTotal "dog" = 3 ∧
    (mergeHapaxes exHapaxTable).map (fun u => u.rowTotal "dog") = some 2 :=
  ⟨by decide, by decide⟩

/-- C4 witness: a one-sentence corpus with one `dog` chunk gives row total 1
for `"dog"`, equal to its chunk count; and on `exSafeTable` the merge
preserves the `"dog"` row total and the grand total. -/
theorem row_totals_witness :
    (buildTable ["dog"] (corpusObservations ["dog"] [[exChunkDet]])).rowTotal "dog"
        = chunkCount [[exChunkDet]] "dog" ∧
    exSafeTable.merged.rowTotal "dog" = exSafeTable.rowTotal "dog" ∧
    exSafeTable.merged.grandTotal = exSafeTable.grandTotal := by
  have h := row_totals ["dog"] [[exChunkDet]] "dog" (by decide) exSafeTable
    (by decide) (by decide) (by decide)
  exact ⟨h.1, h.2.1 "dog", h.2.2⟩

/-! ## Claim C5 -/

/-- C5: a chunk whose lowercased head is not a target emits nothing; a
qualifying chunk emits exactly one pair (its label defaulting to
`"no_article"`); a non-alphabetic child is skipped without blocking the scan;
and when every child before `c` is skippable (non-alphabetic or with a
relation other than `det`/`poss`) while `c` is alphabetic, then `c` decides
the label — as a lowercased determiner if its relation is `det`, or as a
(normalized) possessive if its relation is `poss` — whichever relation type
appears first in child order, the remaining children being ignored; in total
`process_sentence` emits exactly one pair per qualifying chunk. -/
theorem classifier_scan_order (targets : List String) (ch : NounChunk)
    (chunks : List NounChunk) (pre rest : List Child) (c : Child) :
    (pyLower ch.rootText ∉ targets → classifyChunk targets ch = none) ∧
    (pyLower ch.rootText ∈ targets →
      classifyChunk targets ch
        = some (pyLower ch.rootText, (scanChildren ch.children).getD "no_article")) ∧
    (isAlphaStr c.text = false → scanChildren (c :: rest) = scanChildren rest) ∧
    ((∀ c' ∈ pre, isAlphaStr c'.text = false ∨ (c'.dep ≠ "det" ∧ c'.dep ≠ "poss")) →
      isAlphaStr c.text = true →
      ((c.dep = "det" → scanChildren (pre ++ c :: rest) = some (pyLower c.text)) ∧
       (c.dep = "poss" → scanChildren (pre ++ c :: rest)
          = some (if pyLower c.text ∈ possessives then pyLower c.text
                  else "other_possessive")))) ∧
    (process_sentence targets chunks).length
      = (chunks.filter (fun ck => decide (pyLower ck.rootText ∈ targets))).length := by
  refine ⟨fun h => by simp [classifyChunk, h], fun h => by simp [classifyChunk, h],
    fun h => scanChildren_cons_nonalpha c rest h, fun hpre ha => ⟨?_, ?_⟩, ?_⟩
  · intro hd
    rw [scanChildren_append_skip pre _ hpre]
    exact scanChildren_det c rest ha hd
  · intro hp
    rw [scanChildren_append_skip pre _ hpre]
    exact scanChildren_poss c rest ha hp
  · induction chunks with
    | nil => rfl
    | cons ck rest2 ih =>
      simp only [process_sentence, List.filterMap_cons] at ih ⊢
      by_cases hmem : pyLower ck.rootText ∈ targets
      · simp [classifyChunk, hmem, List.filter_cons, ih]
      · simp [classifyChunk, hmem, List.filter_cons, ih]

/-- C5 witness: the scan over the single determiner child `The` yields label
`"the"`; a chunk headed by `cat` emits nothing for target set `{"dog"}`; and
a two-chunk sentence with two qualifying chunks emits exactly two pairs. -/
theorem classifier_scan_order_witness :
    scanChildren [{ text := "The", dep := "det" }] = some "the" ∧
    classifyChunk ["dog"] { rootText := "cat", children := [] } = none ∧
    (process_sentence ["dog"] [exChunkDet, exChunkPoss]).length
      = ([exChunkDet, exChunkPoss].filter
          (fun ck => decide (pyLower ck.rootText ∈ ["dog"]))).length := by
  refine ⟨?_, ?_, ?_⟩
  · have h := ((classifier_scan_order ["dog"] exChunkBare []
      [] [] { text := "The", dep := "det" }).2.2.2.1
      (by intro c' hc'; cases hc') (by decide)).1 rfl
    rw [List.nil_append] at h
    rw [h]
    decide
  · exact (classifier_scan_order ["dog"] { rootText := "cat", children := [] }
      [] [] [] { text := "The", dep := "det" }).1 (by decide)
  · exact (classifier_scan_order ["dog"] exChunkBare [exChunkDet, exChunkPoss]
      [] [] { text := "The", dep := "det" }).2.2.2.2

/-! ## Claim C6 -/

/-- C6: when the deciding child of a qualifying chunk carries the `poss`
relation, its lowercased surface form is the label exactly when it is one of
the seven closed-set possessive pronouns, and otherwise the label is the
sentinel `"other_possessive"`; and when the scan finds no alphabetic
`det`/`poss` child at all, the chunk emits `(noun, "no_article")`. -/
theorem possessive_normalization (targets : List String) (ch : NounChunk)
    (pre rest : List Child) (c : Child) :
    ((∀ c' ∈ pre, isAlphaStr c'.text = false ∨ (c'.dep ≠ "det" ∧ c'.dep ≠ "poss")) →
      isAlphaStr c.text = true → c.dep = "poss" →
      ((pyLower c.text ∈ possessives →
          scanChildren (pre ++ c :: rest) = some (pyLower c.text)) ∧
       (pyLower c.text ∉ possessives →
          scanChildren (pre ++ c :: rest) = some "other_possessive"))) ∧
    (pyLower ch.rootText ∈ targets →
      (∀ c' ∈ ch.children, isAlphaStr c'.text = false ∨ (c'.dep ≠ "det" ∧ c'.dep ≠ "poss")) →
      classifyChunk targets ch = some (pyLower ch.rootText, "no_article")) := by
  constructor
  · intro hpre ha hp
    have hs := scanChildren_append_skip pre (c :: rest) hpre
    constructor
    · intro hmem
      rw [hs, scanChildren_poss c rest ha hp, if_pos hmem]
    · intro hmem
      rw [hs, scanChildren_poss c rest ha hp, if_neg hmem]
  · intro hmem hskip
    simp [classifyChunk, hmem, scanChildren_none ch.children hskip]

/-- C6 witness: the possessive child `My` is in the closed set and labels the
chunk `"my"`; the possessive child `Marys` is outside the closed set and
labels it `"other_possessive"`; a qualifying chunk with no children emits
`("dog", "no_article")`. -/
theorem possessive_normalization_witness :
    scanChildren [{ text := "My", dep := "poss" }] = some "my" ∧
    scanChildren [{ text := "Marys", dep := "poss" }] = some "other_possessive" ∧
    classifyChunk ["dog"] exChunkBare = some ("dog", "no_article") := by
  refine ⟨?_, ?_, ?_⟩
  · have h := ((possessive_normalization ["dog"] exChunkBare [] []
      { text := "My", dep := "poss" }).1
      (by intro c' hc'; cases hc') (by decide) rfl).1 (by decide)
    rw [List.nil_append] at h
    rw [h]
    decide
  · have h := ((possessive_normalization ["dog"] exChunkBare [] []
      { text := "Marys", dep := "poss" }).1
      (by intro c' hc'; cases hc') (by decide) rfl).2 (by decide)
    rw [List.nil_append] at h
    exact h
  · have h := (possessive_normalization ["dog"] exChunkBare [] []
      { text := "My", dep := "poss" }).2 (by decide) (by intro c' hc'; cases hc')
    rw [h]
    decide

/-! ## Claim C8 -/

/-- C8 (amended): `main` wraps the parser call in no handler, so a sentence
the parser cannot process aborts the entire run — the sentence loop yields no
observations at all, no matter how much of the corpus would still qualify;
only a corpus whose every sentence parses produces the observation stream.
There is no per-sentence recovery in the code. -/
theorem parse_failure_aborts (targets : List String)
    (pre post : List (Option (List NounChunk))) (corpus : List (List NounChunk)) :
    collectObservations targets (pre ++ none :: post) = none ∧
    collectObservations targets (corpus.map some)
      = some (corpusObservations targets corpus) :=
  ⟨collectObservations_abort targets pre post,
   collectObservations_success targets corpus⟩

/-- C8 counterexample: a corpus whose first sentence fails to parse and whose
second holds a qualifying chunk produces no observations at all — the run
aborts — although the remaining corpus alone would yield `("dog", "the")`,
which the claimed per-sentence recovery would have kept. -/
theorem parse_failure_aborts_cex :
    collectObservations ["dog"] [none, some [exChunkDet]] = none ∧
    process_sentence ["dog"] [exChunkDet] = [("dog", "the")] :=
  ⟨rfl, by decide⟩

/-! ## Claim C9 -/

/-- C9 (amended): the frequency counter accepts TAB-delimited pairs only —
any line that does not split on tabs into exactly two fields (in particular a
space-delimited line) is silently skipped by the tally loop — and on the
scenario's four tab-delimited lines the table after the alphabetic filter is
exactly `{"dog": 1}`. -/
theorem tagged_line_parsing_amended :
    most_frequent_nouns ["the\tDT", "dog\tNN", "barked\tVBD", "loudly\tRB"] none
      = [("dog", 1)] ∧
    ∀ (line : String) (c : List (String × Nat)),
      (splitOnTab (pyLower (pyStrip line)).data).length ≠ 2 →
      tallyLine c line = c := by
  constructor
  · decide
  · intro line c hlen
    unfold tallyLine splitTagLine
    rcases hsplit : splitOnTab (pyLower (pyStrip line)).data
      with _ | ⟨a, _ | ⟨b, _ | ⟨d, l⟩⟩⟩
    · rfl
    · rfl
    · exact absurd
        (show (splitOnTab (pyLower (pyStrip line)).data).length = 2 by
          rw [hsplit]; rfl)
        hlen
    · rfl

/-- C9 counterexample: the space-delimited line `dog NN` does not split into
two fields on tabs, so it is skipped and the table stays empty — under the
claimed whitespace-or-tab acceptance it would have produced `{"dog": 1}`, as
the tab-delimited variant does. -/
theorem space_delimited_skipped_cex :
    most_frequent_nouns ["dog NN"] none = [] ∧
    most_frequent_nouns ["dog\tNN"] none = [("dog", 1)] :=
  ⟨by decide, by decide⟩

/-- C9 witness: the space-delimited line `dog NN` yields one field, so the
tally loop leaves the counter unchanged. -/
theorem tagged_line_parsing_witness :
    (splitOnTab (pyLower (pyStrip "dog NN")).data).length ≠ 2 ∧
    tallyLine [] "dog NN" = [] :=
  ⟨by decide, tagged_line_parsing_amended.2 "dog NN" [] (by decide)⟩

/-! ## Claim C10 -/

/-- C10: when the target set is non-empty but no observation across the whole
corpus carries the label `"no_article"` (every qualifying chunk had a
determiner or possessive), the aggregated table has no `"no_article"` column,
so the hapax-merge step's access to that column fails with a `KeyError`
(modelled as `none`): the pipeline fails instead of producing a table. -/
theorem missing_no_article_key_fails (targets : List String)
    (corpus : List (List NounChunk))
    (_hne : targets ≠ [])
    (h : "no_article" ∉ (corpusObservations targets corpus).map (fun o => o.2)) :
    mergeHapaxes (buildTable targets (corpusObservations targets corpus)) = none :=
  mergeHapaxes_buildTable_none targets _ h

/-- C10 witness: a one-sentence corpus whose only chunk is `the dog` produces
the single observation `("dog", "the")`; no `"no_article"` label occurs, and
the merge step fails. -/
theorem missing_no_article_key_fails_witness :
    (["dog"] : List String) ≠ [] ∧
    "no_article" ∉ (corpusObservations ["dog"] [[exChunkDet]]).map (fun o => o.2) ∧
    mergeHapaxes (buildTable ["dog"] (corpusObservations ["dog"] [[exChunkDet]])) = none :=
  ⟨by decide, by decide,
   missing_no_article_key_fails ["dog"] [[exChunkDet]] (by decide) (by decide)⟩

/-! ## Claim C7 -/

/-- C7: for every positive requested top-N value `K`, `most_frequent_nouns`
returns exactly the first `K` entries of the stable descending sort of the
filtered frequency counter: the result has length `min K d` (`d` the number
of distinct counted nouns), is ordered by descending frequency, and the sort
is stable — for every frequency value the entries carrying it appear in
exactly their first-encounter order of the counter, which is the tie-break
the claim requires. -/
theorem top_n_selection (lines : List String) (K : Nat) (hK : K ≠ 0) :
    most_frequent_nouns lines (some K) = (sortDesc (nounFrequencies lines)).take K ∧
    (most_frequent_nouns lines (some K)).length
      = min K (nounFrequencies lines).length ∧
    (most_frequent_nouns lines (some K)).Pairwise (fun a b => b.2 ≤ a.2) ∧
    (∀ v, (sortDesc (nounFrequencies lines)).filter (fun q => q.2 == v)
        = (nounFrequencies lines).filter (fun q => q.2 == v)) := by
  have heq : most_frequent_nouns lines (some K)
      = (sortDesc (nounFrequencies lines)).take K := by
    simp [most_frequent_nouns, hK]
  refine ⟨heq, ?_, ?_, fun v => sortDesc_filter_count _ v⟩
  · rw [heq, List.length_take, (sortDesc_perm (nounFrequencies lines)).length_eq]
  · rw [heq]
    exact (sortDesc_pairwise (nounFrequencies lines)).sublist (List.take_sublist _ _)

/-- C7 witness: on the corpus `dog/NN, cat/NN, dog/NN` with K = 1 the
selection is exactly `[("dog", 2)]`, of length `min 1 2`. -/
theorem top_n_selection_witness :
    (1 : Nat) ≠ 0 ∧
    most_frequent_nouns ["dog\tNN", "cat\tNN", "dog\tNN"] (some 1) = [("dog", 2)] ∧
    (most_frequent_nouns ["dog\tNN", "cat\tNN", "dog\tNN"] (some 1)).length
      = min 1 (nounFrequencies ["dog\tNN", "cat\tNN", "dog\tNN"]).length :=
  ⟨by decide, by decide,
   (top_n_selection ["dog\tNN", "cat\tNN", "dog\tNN"] 1 (by decide)).2.1⟩

end ArticleNouns
